import Mathlib

/-!
Shallow embedding of the trading-engine core
(`src/matching_engine/orderbook.rs`, `src/matching_engine/engine.rs`).

Modelling choices:
* `f64` order sizes are modelled as exact rationals `ℚ`: the algorithms only
  subtract never-larger quantities and compare with `>=` / `== 0.0`, which the
  rational model reproduces faithfully for the properties considered here.
* `rust_decimal::Decimal` prices are modelled as `ℚ` (the code only compares
  prices for order and equality, never does arithmetic on them).
* `HashMap<Decimal, Limit>` sides and the engine's
  `HashMap<TradingPair, OrderBook>` are modelled as association lists; the
  hash-map invariant "at most one entry per key" becomes an explicit
  no-duplicate-keys hypothesis where a claim needs it.  `insert` on a present
  key replaces the payload in place, on an absent key it appends.
* In-place mutation through `&mut` references becomes explicit state passing:
  each Rust method returns the updated receiver together with its other
  outputs.
-/

/-- Rust `enum BidOrAsk { Bid, Ask }`. -/
inductive BidOrAsk where
  | Bid : BidOrAsk
  | Ask : BidOrAsk
deriving DecidableEq

/-- Rust `struct Order { size: f64, bid_or_ask: BidOrAsk }`. -/
structure Order where
  size : ℚ
  bid_or_ask : BidOrAsk
deriving DecidableEq

/-- Rust `Order::new`. -/
def Order.new (bid_or_ask : BidOrAsk) (size : ℚ) : Order :=
  { size := size, bid_or_ask := bid_or_ask }

/-- Rust `Order::is_filled`: `self.size == 0.0`. -/
def Order.is_filled (o : Order) : Bool :=
  o.size == 0

/-- Rust `struct Limit { price: Decimal, orders: Vec<Order> }`. -/
structure Limit where
  price : ℚ
  orders : List Order
deriving DecidableEq

/-- Rust `Limit::new`. -/
def Limit.new (price : ℚ) : Limit :=
  { price := price, orders := [] }

/-- Rust `Limit::add_order`: `self.orders.push(order)`. -/
def Limit.add_order (l : Limit) (o : Order) : Limit :=
  { l with orders := l.orders ++ [o] }

/-- Rust `Limit::total_volume`:
`self.orders.iter().map(|o| o.size).reduce(|a, b| a + b).unwrap()`.
`reduce` on an empty iterator yields `None` and `unwrap` panics there, so the
model returns an `Option` whose `none` is the panic branch. -/
def Limit.total_volume (l : Limit) : Option ℚ :=
  match l.orders.map (fun o => o.size) with
  | [] => none
  | x :: xs => some (xs.foldl (fun a b => a + b) x)

/-- The body of one iteration of the loop in `Limit::fill_order`:
`match market_order.size >= limit_order.size { true => ..., false => ... }`.
Returns the updated resting order and the updated market order. -/
def fillOne (limit_order market_order : Order) : Order × Order :=
  if market_order.size ≥ limit_order.size then
    ({ limit_order with size := 0 },
     { market_order with size := market_order.size - limit_order.size })
  else
    ({ limit_order with size := limit_order.size - market_order.size },
     { market_order with size := 0 })

/-- The shared loop shape of `Limit::fill_order` and
`OrderBook::fill_market_order`: run `f` over the elements front to back,
threading the market order through, and break as soon as
`market_order.is_filled()` holds after an iteration. -/
def runFill {α : Type} (f : α → Order → α × Order) : List α → Order → List α × Order
  | [], mo => ([], mo)
  | x :: xs, mo =>
    let p := f x mo
    if p.2.is_filled then (p.1 :: xs, p.2)
    else
      let q := runFill f xs p.2
      (p.1 :: q.1, q.2)

/-- The same loop without the `break`: processes every element.  Used only in
specifications, to characterise where `runFill` stops. -/
def runAll {α : Type} (f : α → Order → α × Order) : List α → Order → List α × Order
  | [], mo => ([], mo)
  | x :: xs, mo =>
    let p := f x mo
    let q := runAll f xs p.2
    (p.1 :: q.1, q.2)

/-- Rust `Limit::fill_order`: iterate `self.orders` mutating resting orders and
the market order, breaking once the market order is filled. -/
def Limit.fill_order (l : Limit) (market_order : Order) : Limit × Order :=
  let r := runFill fillOne l.orders market_order
  ({ l with orders := r.1 }, r.2)

/-- Rust `struct OrderBook { asks: HashMap<Decimal, Limit>, bids: ... }`,
with each side as an association list keyed by `Limit.price`. -/
structure OrderBook where
  asks : List Limit
  bids : List Limit
deriving DecidableEq

/-- Rust `OrderBook::new`. -/
def OrderBook.new : OrderBook :=
  { asks := [], bids := [] }

/-- Rust `OrderBook::ask_limits`: collect the ask-side limits and
`sort_by(|a, b| a.price.cmp(&b.price))` (ascending price). -/
def OrderBook.ask_limits (ob : OrderBook) : List Limit :=
  List.insertionSort (fun a b => a.price ≤ b.price) ob.asks

/-- Rust `OrderBook::bid_limits`: collect the bid-side limits and
`sort_by(|a, b| b.price.cmp(&a.price))` (descending price). -/
def OrderBook.bid_limits (ob : OrderBook) : List Limit :=
  List.insertionSort (fun a b => b.price ≤ a.price) ob.bids

/-- Writing back the limits mutated through the sorted `Vec<&mut Limit>` view:
each limit of the side is replaced by the limit with the same price in the
mutated collection (prices are unique within a hash-map side). -/
def applyFills (side : List Limit) (filled : List Limit) : List Limit :=
  side.map (fun l => ((filled.find? (fun f => f.price == l.price)).getD l))

/-- Rust `OrderBook::fill_market_order`: pick the opposing side's sorted
limits, run `Limit::fill_order` on each until the market order is filled. -/
def OrderBook.fill_market_order (ob : OrderBook) (market_order : Order) :
    OrderBook × Order :=
  match market_order.bid_or_ask with
  | BidOrAsk.Bid =>
    let r := runFill Limit.fill_order ob.ask_limits market_order
    ({ ob with asks := applyFills ob.asks r.1 }, r.2)
  | BidOrAsk.Ask =>
    let r := runFill Limit.fill_order ob.bid_limits market_order
    ({ ob with bids := applyFills ob.bids r.1 }, r.2)

/-- One side of Rust `OrderBook::add_limit_order` (the `get_mut` / `insert`
pattern): append the order to the limit at `price` if present, otherwise
insert a fresh `Limit::new(price)` holding the order. -/
def addToSide (side : List Limit) (price : ℚ) (o : Order) : List Limit :=
  if side.any (fun l => l.price == price) then
    side.map (fun l => if l.price == price then l.add_order o else l)
  else
    side ++ [(Limit.new price).add_order o]

/-- Rust `OrderBook::add_limit_order`: route by the order's side. -/
def OrderBook.add_limit_order (ob : OrderBook) (price : ℚ) (o : Order) :
    OrderBook :=
  match o.bid_or_ask with
  | BidOrAsk.Bid => { ob with bids := addToSide ob.bids price o }
  | BidOrAsk.Ask => { ob with asks := addToSide ob.asks price o }

/-- Rust `struct TradingPair { base: String, quote: String }`. -/
structure TradingPair where
  base : String
  quote : String
deriving DecidableEq

/-- Rust `TradingPair::to_string`: `format!("{}_{}", base, quote)`. -/
def TradingPair.to_string (p : TradingPair) : String :=
  p.base ++ "_" ++ p.quote

/-- Rust `struct MatchingEngine { orderbooks: HashMap<TradingPair, OrderBook> }`. -/
structure MatchingEngine where
  orderbooks : List (TradingPair × OrderBook)

/-- Rust `MatchingEngine::new`. -/
def MatchingEngine.new : MatchingEngine :=
  { orderbooks := [] }

/-- Lookup (Rust `HashMap::get`) on the engine's registry. -/
def lookupBook (e : MatchingEngine) (pair : TradingPair) : Option OrderBook :=
  (e.orderbooks.find? (fun kv => kv.1 == pair)).map (fun kv => kv.2)

/-- Rust `MatchingEngine::add_new_market`:
`self.orderbooks.insert(pair, OrderBook::new())` (replace if present). -/
def MatchingEngine.add_new_market (e : MatchingEngine) (pair : TradingPair) :
    MatchingEngine :=
  if e.orderbooks.any (fun kv => kv.1 == pair) then
    { orderbooks :=
        e.orderbooks.map (fun kv => if kv.1 == pair then (kv.1, OrderBook.new) else kv) }
  else
    { orderbooks := e.orderbooks ++ [(pair, OrderBook.new)] }

/-- Rust `MatchingEngine::place_limit_order`: look the pair's book up,
delegate to `add_limit_order` on success, report the missing market
otherwise (no mutation in that case). -/
def MatchingEngine.place_limit_order (e : MatchingEngine) (pair : TradingPair)
    (price : ℚ) (o : Order) : MatchingEngine × Except String Unit :=
  match lookupBook e pair with
  | some ob =>
    ({ orderbooks :=
         e.orderbooks.map
           (fun kv => if kv.1 == pair then (kv.1, ob.add_limit_order price o) else kv) },
     Except.ok ())
  | none =>
    (e, Except.error
      ("the orderbook for the given trading pair (" ++ pair.to_string ++ ") does not exist"))

/-- Sum of the remaining sizes of a queue of orders. -/
def sumSizes (q : List Order) : ℚ :=
  (q.map Order.size).sum

/-- Total resting size at one price level (the exact value `total_volume`
computes on a non-empty queue, defined unconditionally for specification). -/
def Limit.volume (l : Limit) : ℚ :=
  sumSizes l.orders

/-- Total resting size over the whole book. -/
def OrderBook.volume (ob : OrderBook) : ℚ :=
  ((ob.asks ++ ob.bids).map Limit.volume).sum

/-- Everything about a price level except its orders' sizes: its price and the
queue's sequence of sides.  Two limits of equal shape hold the same orders, in
the same first-in-first-out positions, differing at most in size fields. -/
def Limit.shape (l : Limit) : ℚ × List BidOrAsk :=
  (l.price, l.orders.map Order.bid_or_ask)

/-- Characterisation of the break-on-filled loop `runFill` in terms of the
break-free loop `runAll`: some prefix of length `k` is processed sequentially,
the remainder is untouched, the loop either exhausted the list or the market
order's size is zero after step `k`, and it was nonzero after every earlier
completed step (the loop checks the filled condition only after an iteration,
so `j` ranges over `0 < j < k`). -/
def FillTrace {α : Type} (f : α → Order → α × Order) (l : List α) (mo : Order) : Prop :=
  ∃ k, k ≤ l.length ∧
    runFill f l mo = ((runAll f (l.take k) mo).1 ++ l.drop k, (runAll f (l.take k) mo).2) ∧
    (k = l.length ∨ ((runAll f (l.take k) mo).2).size = 0) ∧
    ∀ j, 0 < j → j < k → ((runAll f (l.take j) mo).2).size ≠ 0

/-- Replaying a list of `(price, order)` placements on a fresh book. -/
def placeAll (ps : List (ℚ × Order)) : OrderBook :=
  ps.foldl (fun ob pr => ob.add_limit_order pr.1 pr.2) OrderBook.new

/-! ## Concrete instances used by the witnesses -/

def exBid10 : Order := Order.new BidOrAsk.Bid 10

def exLimit100 : Limit := { price := 100, orders := [Order.new BidOrAsk.Ask 10] }

def exLimit200 : Limit := { price := 200, orders := [Order.new BidOrAsk.Ask 5] }

def exBook : OrderBook := { asks := [exLimit100, exLimit200], bids := [] }

def exPair : TradingPair := { base := "BTC", quote := "USD" }

def exPair2 : TradingPair := { base := "ETH", quote := "USD" }

def exEngine : MatchingEngine := { orderbooks := [(exPair, OrderBook.new)] }

def exPlacements : List (ℚ × Order) :=
  [(500, Order.new BidOrAsk.Ask 10), (100, Order.new BidOrAsk.Ask 10),
   (200, Order.new BidOrAsk.Ask 10), (300, Order.new BidOrAsk.Ask 10)]

instance : IsTotal Limit (fun a b => a.price ≤ b.price) :=
  ⟨fun a b => le_total a.price b.price⟩

instance : IsTrans Limit (fun a b => a.price ≤ b.price) :=
  ⟨fun _ _ _ h1 h2 => le_trans h1 h2⟩

instance : IsTotal Limit (fun a b => b.price ≤ a.price) :=
  ⟨fun a b => le_total b.price a.price⟩

instance : IsTrans Limit (fun a b => b.price ≤ a.price) :=
  ⟨fun _ _ _ h1 h2 => le_trans h2 h1⟩

/-! ## Basic lemmas about the loop combinators -/

theorem is_filled_iff (o : Order) : o.is_filled = true ↔ o.size = 0 := by
  simp [Order.is_filled]

theorem runFill_nil {α : Type} (f : α → Order → α × Order) (mo : Order) :
    runFill f [] mo = ([], mo) := rfl

theorem runFill_cons_pos {α : Type} (f : α → Order → α × Order) (x : α) (xs : List α)
    (mo : Order) (h : ((f x mo).2).is_filled = true) :
    runFill f (x :: xs) mo = ((f x mo).1 :: xs, (f x mo).2) := by
  simp [runFill, h]

theorem runFill_cons_neg {α : Type} (f : α → Order → α × Order) (x : α) (xs : List α)
    (mo : Order) (h : ((f x mo).2).is_filled = false) :
    runFill f (x :: xs) mo =
      ((f x mo).1 :: (runFill f xs (f x mo).2).1, (runFill f xs (f x mo).2).2) := by
  simp [runFill, h]

theorem runAll_nil {α : Type} (f : α → Order → α × Order) (mo : Order) :
    runAll f [] mo = ([], mo) := rfl

theorem runAll_cons {α : Type} (f : α → Order → α × Order) (x : α) (xs : List α)
    (mo : Order) :
    runAll f (x :: xs) mo =
      ((f x mo).1 :: (runAll f xs (f x mo).2).1, (runAll f xs (f x mo).2).2) := rfl

theorem runAll_length {α : Type} (f : α → Order → α × Order) :
    ∀ (l : List α) (mo : Order), ((runAll f l mo).1).length = l.length := by
  intro l
  induction l with
  | nil => intro mo; rfl
  | cons x xs ih => intro mo; simp [runAll_cons, ih]

theorem runFill_trace {α : Type} (f : α → Order → α × Order) :
    ∀ (l : List α) (mo : Order), FillTrace f l mo := by
  intro l
  induction l with
  | nil =>
    intro mo
    refine ⟨0, Nat.le_refl 0, rfl, Or.inl rfl, ?_⟩
    intro j hj hjk
    omega
  | cons x xs ih =>
    intro mo
    cases hb : ((f x mo).2).is_filled with
    | true =>
      refine ⟨1, by simp, ?_, ?_, ?_⟩
      · rw [runFill_cons_pos f x xs mo hb]
        simp [runAll_cons, runAll_nil]
      · right
        simpa [runAll_cons, runAll_nil, is_filled_iff] using hb
      · intro j hj hj1
        omega
    | false =>
      obtain ⟨k, hk, heq, hstop, hmin⟩ := ih (f x mo).2
      refine ⟨k + 1, by simpa using hk, ?_, ?_, ?_⟩
      · rw [runFill_cons_neg f x xs mo hb, heq]
        simp only [List.take_succ_cons, List.drop_succ_cons, runAll_cons]
        rfl
      · rcases hstop with hlen | hzero
        · left; simp [hlen]
        · right; simpa [runAll_cons] using hzero
      · intro j hj hjk
        cases j with
        | zero => omega
        | succ j' =>
          cases Nat.eq_zero_or_pos j' with
          | inl h0 =>
            subst h0
            simp only [List.take_succ_cons, List.take_zero, runAll_cons, runAll_nil]
            intro hc
            rw [(is_filled_iff _).mpr hc] at hb
            simp at hb
          | inr hpos =>
            have := hmin j' hpos (by omega)
            simpa [runAll_cons] using this

theorem runAll_take_succ {α : Type} (f : α → Order → α × Order) :
    ∀ (l : List α) (mo : Order) (i : ℕ) (h : i < l.length),
      runAll f (l.take (i + 1)) mo =
        ((runAll f (l.take i) mo).1 ++ [(f (l.get ⟨i, h⟩) ((runAll f (l.take i) mo).2)).1],
         (f (l.get ⟨i, h⟩) ((runAll f (l.take i) mo).2)).2) := by
  intro l
  induction l with
  | nil => intro mo i h; simp at h
  | cons x xs ih =>
    intro mo i h
    cases i with
    | zero => simp [runAll_cons, runAll_nil]
    | succ i' =>
      have h' : i' < xs.length := by simpa using h
      simp only [List.take_succ_cons, runAll_cons, List.get_cons_succ]
      rw [ih (f x mo).2 i' h']
      rfl

theorem runFill_map_eq {α β : Type} (f : α → Order → α × Order) (g : α → β)
    (hf : ∀ x m, g ((f x m).1) = g x) :
    ∀ (l : List α) (mo : Order), ((runFill f l mo).1).map g = l.map g := by
  intro l
  induction l with
  | nil => intro mo; rfl
  | cons x xs ih =>
    intro mo
    cases hb : ((f x mo).2).is_filled with
    | true => rw [runFill_cons_pos f x xs mo hb]; simp [hf]
    | false => rw [runFill_cons_neg f x xs mo hb]; simp [hf, ih]

theorem runFill_conserve {α : Type} (f : α → Order → α × Order) (μ : α → ℚ)
    (hf : ∀ x m, μ ((f x m).1) + m.size = μ x + ((f x m).2).size) :
    ∀ (l : List α) (mo : Order),
      (((runFill f l mo).1).map μ).sum + mo.size =
        (l.map μ).sum + ((runFill f l mo).2).size := by
  intro l
  induction l with
  | nil => intro mo; rfl
  | cons x xs ih =>
    intro mo
    cases hb : ((f x mo).2).is_filled with
    | true =>
      have h1 := hf x mo
      rw [runFill_cons_pos f x xs mo hb]
      simp only [List.map_cons, List.sum_cons]
      linarith
    | false =>
      have h1 := hf x mo
      have h2 := ih (f x mo).2
      rw [runFill_cons_neg f x xs mo hb]
      simp only [List.map_cons, List.sum_cons]
      linarith

theorem fillOne_keeps_side (lo m : Order) :
    ((fillOne lo m).1).bid_or_ask = lo.bid_or_ask := by
  by_cases h : m.size ≥ lo.size <;> simp [fillOne, h]

theorem fillOne_conserve (lo m : Order) :
    ((fillOne lo m).1).size + m.size = lo.size + ((fillOne lo m).2).size := by
  by_cases h : m.size ≥ lo.size
  · simp only [fillOne, if_pos h]
    ring
  · simp only [fillOne, if_neg h]
    ring

theorem fillOne_nonneg (lo m : Order) (h1 : 0 ≤ lo.size) (h2 : 0 ≤ m.size) :
    0 ≤ ((fillOne lo m).1).size ∧ 0 ≤ ((fillOne lo m).2).size := by
  by_cases h : m.size ≥ lo.size
  · simp only [fillOne, if_pos h]
    constructor
    · exact le_refl 0
    · linarith
  · simp only [fillOne, if_neg h]
    have hlt : m.size < lo.size := lt_of_not_le h
    constructor
    · linarith
    · exact le_refl 0

theorem runFill_preserve {α : Type} (f : α → Order → α × Order) (P : α → Prop)
    (hf : ∀ x m, P x → 0 ≤ m.size → P ((f x m).1) ∧ 0 ≤ ((f x m).2).size) :
    ∀ (l : List α) (mo : Order), (∀ x ∈ l, P x) → 0 ≤ mo.size →
      (∀ y ∈ (runFill f l mo).1, P y) ∧ 0 ≤ ((runFill f l mo).2).size := by
  intro l
  induction l with
  | nil => intro mo _ hmo; exact ⟨by simp [runFill_nil], hmo⟩
  | cons x xs ih =>
    intro mo hl hmo
    obtain ⟨hx1, hx2⟩ := hf x mo (hl x (by simp)) hmo
    cases hb : ((f x mo).2).is_filled with
    | true =>
      rw [runFill_cons_pos f x xs mo hb]
      refine ⟨?_, hx2⟩
      intro y hy
      rcases List.mem_cons.mp hy with rfl | hy
      · exact hx1
      · exact hl y (by simp [hy])
    | false =>
      obtain ⟨ht1, ht2⟩ := ih (f x mo).2 (fun z hz => hl z (by simp [hz])) hx2
      rw [runFill_cons_neg f x xs mo hb]
      refine ⟨?_, ht2⟩
      intro y hy
      rcases List.mem_cons.mp hy with rfl | hy
      · exact hx1
      · exact ht1 y hy

/-! ## Lemmas about `Limit.fill_order` -/

theorem fill_order_def (l : Limit) (mo : Order) :
    l.fill_order mo =
      ({ l with orders := (runFill fillOne l.orders mo).1 },
       (runFill fillOne l.orders mo).2) := rfl

theorem fill_order_price (l : Limit) (mo : Order) :
    ((l.fill_order mo).1).price = l.price := rfl

theorem fill_order_shape (l : Limit) (mo : Order) :
    ((l.fill_order mo).1).shape = l.shape := by
  unfold Limit.shape Limit.fill_order
  simp only
  rw [runFill_map_eq fillOne Order.bid_or_ask fillOne_keeps_side l.orders mo]

theorem fill_order_conserve (l : Limit) (mo : Order) :
    ((l.fill_order mo).1).volume + mo.size = l.volume + ((l.fill_order mo).2).size := by
  have h := runFill_conserve fillOne Order.size fillOne_conserve l.orders mo
  simpa [Limit.fill_order, Limit.volume, sumSizes] using h

theorem fill_order_nonneg (l : Limit) (mo : Order)
    (h1 : ∀ o ∈ l.orders, 0 ≤ o.size) (h2 : 0 ≤ mo.size) :
    (∀ o ∈ ((l.fill_order mo).1).orders, 0 ≤ o.size) ∧
      0 ≤ ((l.fill_order mo).2).size := by
  have h := runFill_preserve fillOne (fun o => 0 ≤ o.size)
    (fun x m hx hm => fillOne_nonneg x m hx hm) l.orders mo h1 h2
  simpa [Limit.fill_order] using h

/-! ## Lemmas about the sorted views and `applyFills` -/

theorem ask_limits_perm (ob : OrderBook) : ob.ask_limits.Perm ob.asks :=
  List.perm_insertionSort _ _

theorem bid_limits_perm (ob : OrderBook) : ob.bid_limits.Perm ob.bids :=
  List.perm_insertionSort _ _

theorem ask_limits_sorted (ob : OrderBook) :
    ob.ask_limits.Pairwise (fun a b => a.price ≤ b.price) :=
  List.sorted_insertionSort _ _

theorem bid_limits_sorted (ob : OrderBook) :
    ob.bid_limits.Pairwise (fun a b => b.price ≤ a.price) :=
  List.sorted_insertionSort _ _

theorem price_of_shape (l : List Limit) :
    l.map Limit.price = (l.map Limit.shape).map Prod.fst := by
  rw [List.map_map]
  rfl

theorem find_price_get :
    ∀ (filled : List Limit), ((filled.map Limit.price).Nodup) →
      ∀ (j : ℕ) (hj : j < filled.length),
        filled.find? (fun fl => fl.price == (filled.get ⟨j, hj⟩).price) =
          some (filled.get ⟨j, hj⟩) := by
  intro filled
  induction filled with
  | nil => intro _ j hj; simp at hj
  | cons x xs ih =>
    intro hnd j hj
    have hx : x.price ∉ xs.map Limit.price := by
      simp only [List.map_cons, List.nodup_cons] at hnd
      exact fun hc => absurd hc (by simpa using hnd.1)
    have hnd2 : (xs.map Limit.price).Nodup := by
      simp only [List.map_cons, List.nodup_cons] at hnd
      exact hnd.2
    cases j with
    | zero =>
      rw [List.find?_cons_of_pos _ (by simp)]
      rfl
    | succ j' =>
      have hj' : j' < xs.length := by simpa using hj
      have hget : (x :: xs).get ⟨j' + 1, hj⟩ = xs.get ⟨j', hj'⟩ := rfl
      rw [hget]
      have hmem : (xs.get ⟨j', hj'⟩).price ∈ xs.map Limit.price :=
        List.mem_map.mpr ⟨xs.get ⟨j', hj'⟩, List.get_mem xs j' hj', rfl⟩
      have hne : ¬ (x.price == (xs.get ⟨j', hj'⟩).price) = true := by
        intro hc
        exact hx ((beq_iff_eq.mp hc) ▸ hmem)
      rw [@List.find?_cons_of_neg Limit
        (fun fl => fl.price == (xs.get ⟨j', hj'⟩).price) x xs hne]
      exact ih hnd2 j' hj'

theorem find_price_mem (filled : List Limit) (hnd : (filled.map Limit.price).Nodup)
    (l : Limit) (hl : l ∈ filled) :
    filled.find? (fun fl => fl.price == l.price) = some l := by
  obtain ⟨n, rfl⟩ := List.mem_iff_get.mp hl
  exact find_price_get filled hnd n.1 n.2

theorem map_lookup_eq (sorted filled : List Limit)
    (hp : sorted.map Limit.price = filled.map Limit.price)
    (hnd : (filled.map Limit.price).Nodup) :
    sorted.map (fun l => ((filled.find? (fun fl => fl.price == l.price)).getD l)) =
      filled := by
  have hlen : sorted.length = filled.length := by
    have h := congrArg List.length hp
    simpa using h
  apply List.ext_get (by simpa using hlen)
  intro i h1 h2
  have h1' : i < sorted.length := by simpa using h1
  have hpi : (sorted.get ⟨i, h1'⟩).price = (filled.get ⟨i, h2⟩).price := by
    have := congrArg (fun (l : List ℚ) => l.get? i) hp
    simp only [List.get?_eq_getElem?, List.getElem?_map] at this
    rw [List.getElem?_eq_getElem (by simpa using h1'),
        List.getElem?_eq_getElem (by simpa using h2)] at this
    simpa [List.get_eq_getElem] using this
  have hget : (sorted.map
      (fun l => ((filled.find? (fun fl => fl.price == l.price)).getD l))).get ⟨i, h1⟩ =
      (filled.find? (fun fl =>
        fl.price == (sorted.get ⟨i, h1'⟩).price)).getD (sorted.get ⟨i, h1'⟩) := by
    simp [List.get_eq_getElem, List.getElem_map]
  rw [hget, hpi, find_price_get filled hnd i h2]
  rfl

theorem applyFills_map_price (side filled : List Limit) :
    (applyFills side filled).map Limit.price = side.map Limit.price := by
  unfold applyFills
  rw [List.map_map]
  apply List.map_congr_left
  intro l hl
  cases hfind : filled.find? (fun fl => fl.price == l.price) with
  | none => simp [Function.comp, hfind]
  | some f =>
    have hpf := List.find?_some hfind
    simp only [Function.comp, hfind, Option.getD_some]
    exact beq_iff_eq.mp hpf

theorem applyFills_of_self (side sorted : List Limit) (hperm : sorted.Perm side)
    (hnd : (side.map Limit.price).Nodup) :
    applyFills side sorted = side := by
  have hnd2 : (sorted.map Limit.price).Nodup :=
    ((hperm.map Limit.price).nodup_iff).mpr hnd
  unfold applyFills
  have hcongr : ∀ l ∈ side,
      ((sorted.find? (fun fl => fl.price == l.price)).getD l) = l := by
    intro l hl
    rw [find_price_mem sorted hnd2 l (hperm.mem_iff.mpr hl)]
    rfl
  calc side.map (fun l => ((sorted.find? (fun fl => fl.price == l.price)).getD l))
      = side.map id := List.map_congr_left hcongr
    _ = side := List.map_id side

theorem applyFills_perm (side sorted filled : List Limit) (hperm : sorted.Perm side)
    (hnd : (side.map Limit.price).Nodup)
    (hp : filled.map Limit.price = sorted.map Limit.price) :
    (applyFills side filled).Perm filled := by
  have hnds : (sorted.map Limit.price).Nodup :=
    ((hperm.map Limit.price).nodup_iff).mpr hnd
  have hndf : (filled.map Limit.price).Nodup := hp ▸ hnds
  have hmain : sorted.map
      (fun l => ((filled.find? (fun fl => fl.price == l.price)).getD l)) = filled :=
    map_lookup_eq sorted filled hp.symm hndf
  unfold applyFills
  have hres :=
    (hperm.map (fun l => ((filled.find? (fun fl => fl.price == l.price)).getD l))).symm
  rw [hmain] at hres
  exact hres

theorem applyFills_map_shape (side sorted filled : List Limit) (hperm : sorted.Perm side)
    (hnd : (side.map Limit.price).Nodup)
    (hs : filled.map Limit.shape = sorted.map Limit.shape) :
    (applyFills side filled).map Limit.shape = side.map Limit.shape := by
  have hp : filled.map Limit.price = sorted.map Limit.price := by
    rw [price_of_shape, price_of_shape, hs]
  have hnds : (sorted.map Limit.price).Nodup :=
    ((hperm.map Limit.price).nodup_iff).mpr hnd
  have hndf : (filled.map Limit.price).Nodup := hp ▸ hnds
  have hlen : filled.length = sorted.length := by
    have h := congrArg List.length hp
    simpa using h
  unfold applyFills
  rw [List.map_map]
  apply List.map_congr_left
  intro l hl
  have hlmem : l ∈ sorted := hperm.mem_iff.mpr hl
  obtain ⟨n, hget⟩ := List.mem_iff_get.mp hlmem
  have hn2 : n.1 < filled.length := by rw [hlen]; exact n.2
  have hshapes : (filled.get ⟨n.1, hn2⟩).shape = (sorted.get n).shape := by
    have h := congrArg (fun (xs : List (ℚ × List BidOrAsk)) => xs.get? n.1) hs
    simp only [List.get?_eq_getElem?, List.getElem?_map] at h
    rw [List.getElem?_eq_getElem (by simpa using hn2),
        List.getElem?_eq_getElem (by simpa using n.2)] at h
    simpa [List.get_eq_getElem] using h
  have hprices : (filled.get ⟨n.1, hn2⟩).price = l.price := by
    have h2 := congrArg Prod.fst hshapes
    simp only [Limit.shape] at h2
    rw [hget] at h2
    exact h2
  have hfind : filled.find? (fun fl => fl.price == l.price) =
      some (filled.get ⟨n.1, hn2⟩) := by
    have h := find_price_get filled hndf n.1 hn2
    rwa [hprices] at h
  simp only [Function.comp, hfind, Option.getD_some]
  rw [hshapes, hget]

/-! ## Lemmas about the engine registry -/

theorem find_replace_self (l : List (TradingPair × OrderBook)) (pair : TradingPair)
    (nb : OrderBook) :
    (l.map (fun kv => if kv.1 == pair then (kv.1, nb) else kv)).find?
        (fun kv => kv.1 == pair) =
      (l.find? (fun kv => kv.1 == pair)).map (fun kv => (kv.1, nb)) := by
  have hpred : ((fun kv => kv.1 == pair) ∘
      (fun kv : TradingPair × OrderBook => if kv.1 == pair then (kv.1, nb) else kv)) =
      (fun kv => kv.1 == pair) := by
    funext kv
    by_cases h : kv.1 = pair
    · simp [h]
    · simp [h]
  rw [List.find?_map, hpred]
  cases hfind : List.find? (fun kv => kv.1 == pair) l with
  | none => rfl
  | some kv0 =>
    have hp0 := List.find?_some hfind
    have hk : kv0.1 = pair := by simpa using hp0
    simp [hk]

theorem find_replace_ne (l : List (TradingPair × OrderBook)) (pair p : TradingPair)
    (nb : OrderBook) (hne : p ≠ pair) :
    (l.map (fun kv => if kv.1 == pair then (kv.1, nb) else kv)).find?
        (fun kv => kv.1 == p) =
      l.find? (fun kv => kv.1 == p) := by
  have hpred : ((fun kv => kv.1 == p) ∘
      (fun kv : TradingPair × OrderBook => if kv.1 == pair then (kv.1, nb) else kv)) =
      (fun kv => kv.1 == p) := by
    funext kv
    by_cases h : kv.1 = pair
    · simp [h]
    · simp [h]
  rw [List.find?_map, hpred]
  cases hfind : List.find? (fun kv => kv.1 == p) l with
  | none => rfl
  | some kv0 =>
    have hp0 := List.find?_some hfind
    have hk : kv0.1 = p := by simpa using hp0
    have hknp : ¬ kv0.1 = pair := by
      rw [hk]
      exact hne
    simp [hknp]

theorem foldl_add_sum (l : List ℚ) (a : ℚ) :
    l.foldl (fun x y => x + y) a = a + l.sum := by
  induction l generalizing a with
  | nil => simp
  | cons b t ih =>
    simp only [List.foldl_cons, List.sum_cons, ih]
    ring

/-! ## Claim theorems -/

/-- C7: for every Limit with a non-empty order queue, `total_volume` returns
exactly the sum of the remaining sizes of the resident orders; for an empty
queue the computation fails (the `unwrap`-panic branch, modelled as `none`,
is reached). -/
theorem claim_C7_total_volume (lm : Limit) :
    (lm.orders ≠ [] → lm.total_volume = some (sumSizes lm.orders)) ∧
    (lm.orders = [] → lm.total_volume = none) := by
  cases h : lm.orders with
  | nil =>
    constructor
    · intro hne
      exact absurd rfl hne
    · intro _
      simp [Limit.total_volume, h]
  | cons x xs =>
    constructor
    · intro _
      simp only [Limit.total_volume, h, List.map_cons]
      rw [foldl_add_sum]
      simp [sumSizes]
    · intro hc
      simp at hc

/-- C8: `add_new_market` leaves the registry mapping the pair to a fresh empty
order book — overwriting any existing book for that pair — and leaves the
books registered under every other pair unchanged. -/
theorem claim_C8_add_new_market (e : MatchingEngine) (pair : TradingPair) :
    lookupBook (e.add_new_market pair) pair = some OrderBook.new ∧
    ∀ p : TradingPair, p ≠ pair →
      lookupBook (e.add_new_market pair) p = lookupBook e p := by
  unfold MatchingEngine.add_new_market
  by_cases hany : e.orderbooks.any (fun kv => kv.1 == pair) = true
  · rw [if_pos hany]
    constructor
    · show ((e.orderbooks.map
          (fun kv => if kv.1 == pair then (kv.1, OrderBook.new) else kv)).find?
            (fun kv => kv.1 == pair)).map (fun kv => kv.2) = some OrderBook.new
      rw [find_replace_self]
      obtain ⟨kv, hkv, hbeq⟩ := List.any_eq_true.mp hany
      have hs : (e.orderbooks.find? (fun kv => kv.1 == pair)).isSome :=
        List.find?_isSome.mpr ⟨kv, hkv, hbeq⟩
      obtain ⟨r, hr⟩ := Option.isSome_iff_exists.mp hs
      rw [hr]
      rfl
    · intro p hp
      show ((e.orderbooks.map
          (fun kv => if kv.1 == pair then (kv.1, OrderBook.new) else kv)).find?
            (fun kv => kv.1 == p)).map (fun kv => kv.2) =
          (e.orderbooks.find? (fun kv => kv.1 == p)).map (fun kv => kv.2)
      rw [find_replace_ne _ _ _ _ hp]
  · rw [if_neg hany]
    have hnone : e.orderbooks.find? (fun kv => kv.1 == pair) = none := by
      rw [List.find?_eq_none]
      intro kv hkv hc
      exact hany (List.any_eq_true.mpr ⟨kv, hkv, hc⟩)
    constructor
    · show ((e.orderbooks ++ [(pair, OrderBook.new)]).find?
          (fun kv => kv.1 == pair)).map (fun kv => kv.2) = some OrderBook.new
      rw [List.find?_append, hnone]
      simp [List.find?]
    · intro p hp
      have h2 : List.find? (fun kv => kv.1 == p) [(pair, OrderBook.new)] = none := by
        have hpf : (pair == p) = false :=
          beq_eq_false_iff_ne.mpr (fun hc => hp hc.symm)
        simp [List.find?, hpf]
      show ((e.orderbooks ++ [(pair, OrderBook.new)]).find?
          (fun kv => kv.1 == p)).map (fun kv => kv.2) =
          (e.orderbooks.find? (fun kv => kv.1 == p)).map (fun kv => kv.2)
      rw [List.find?_append, h2]
      simp

/-- C5: placing a limit order for an unregistered trading pair returns the
descriptive error naming the pair's canonical `base_quote` string and performs
no mutation at all; for a registered pair it delegates to `add_limit_order`
on that pair's book, reports success, and leaves all other books unchanged. -/
theorem claim_C5_place_limit_order (e : MatchingEngine) (pair : TradingPair)
    (price : ℚ) (o : Order) :
    (lookupBook e pair = none →
      e.place_limit_order pair price o =
        (e, Except.error ("the orderbook for the given trading pair ("
            ++ pair.to_string ++ ") does not exist"))) ∧
    (∀ ob : OrderBook, lookupBook e pair = some ob →
      (e.place_limit_order pair price o).2 = Except.ok () ∧
      lookupBook (e.place_limit_order pair price o).1 pair =
        some (ob.add_limit_order price o) ∧
      ∀ p : TradingPair, p ≠ pair →
        lookupBook (e.place_limit_order pair price o).1 p = lookupBook e p) := by
  constructor
  · intro hnone
    unfold MatchingEngine.place_limit_order
    rw [hnone]
  · intro ob hsome
    unfold MatchingEngine.place_limit_order
    rw [hsome]
    obtain ⟨kv, hkv, hkv2⟩ : ∃ kv, e.orderbooks.find? (fun kv => kv.1 == pair) = some kv
        ∧ kv.2 = ob := by
      unfold lookupBook at hsome
      cases hfind : e.orderbooks.find? (fun kv => kv.1 == pair) with
      | none => rw [hfind] at hsome; cases hsome
      | some kv =>
        rw [hfind] at hsome
        exact ⟨kv, rfl, by simpa using hsome⟩
    refine ⟨rfl, ?_, ?_⟩
    · show ((e.orderbooks.map (fun kv =>
          if kv.1 == pair then (kv.1, ob.add_limit_order price o) else kv)).find?
            (fun kv => kv.1 == pair)).map (fun kv => kv.2) =
          some (ob.add_limit_order price o)
      rw [find_replace_self, hkv]
      rfl
    · intro p hp
      show ((e.orderbooks.map (fun kv =>
          if kv.1 == pair then (kv.1, ob.add_limit_order price o) else kv)).find?
            (fun kv => kv.1 == p)).map (fun kv => kv.2) =
          (e.orderbooks.find? (fun kv => kv.1 == p)).map (fun kv => kv.2)
      rw [find_replace_ne _ _ _ _ hp]

theorem fillOne_of_zero (x mo : Order) (h0 : mo.size = 0) (hx : 0 ≤ x.size) :
    fillOne x mo = (x, mo) := by
  by_cases hge : mo.size ≥ x.size
  · have hxz : x.size = 0 := le_antisymm (h0 ▸ hge) hx
    unfold fillOne
    rw [if_pos hge]
    cases x with
    | mk xsize xside =>
      cases mo with
      | mk msize mside =>
        simp only at hxz h0
        simp [hxz, h0]
  · unfold fillOne
    rw [if_neg hge]
    cases x with
    | mk xsize xside =>
      cases mo with
      | mk msize mside =>
        simp only at h0
        simp [h0]

theorem runFill_fillOne_zero (q : List Order) (mo : Order) (h0 : mo.size = 0)
    (hn : ∀ o ∈ q, 0 ≤ o.size) : runFill fillOne q mo = (q, mo) := by
  cases q with
  | nil => rfl
  | cons x xs =>
    have hfo := fillOne_of_zero x mo h0 (hn x (by simp))
    have hfil : ((fillOne x mo).2).is_filled = true := by
      rw [hfo]
      simp [Order.is_filled, h0]
    rw [runFill_cons_pos fillOne x xs mo hfil, hfo]

theorem fill_order_of_zero (lm : Limit) (mo : Order) (h0 : mo.size = 0)
    (hn : ∀ o ∈ lm.orders, 0 ≤ o.size) : lm.fill_order mo = (lm, mo) := by
  rw [fill_order_def, runFill_fillOne_zero lm.orders mo h0 hn]

theorem runFill_limits_zero (ls : List Limit) (mo : Order) (h0 : mo.size = 0)
    (hn : ∀ lm ∈ ls, ∀ o ∈ lm.orders, 0 ≤ o.size) :
    runFill Limit.fill_order ls mo = (ls, mo) := by
  cases ls with
  | nil => rfl
  | cons x xs =>
    have hfo := fill_order_of_zero x mo h0 (hn x (by simp))
    have hfil : ((Limit.fill_order x mo).2).is_filled = true := by
      rw [hfo]
      simp [Order.is_filled, h0]
    rw [runFill_cons_pos Limit.fill_order x xs mo hfil, hfo]

/-- C10: a market order whose size is already zero is a no-op: even though the
loop enters its body and only checks the filled condition afterwards, no
resting order changes and the book (with non-negative resting sizes and
hash-map-unique prices per side) is returned exactly as it was. -/
theorem claim_C10_zero_market_order (ob : OrderBook) (mo : Order)
    (h0 : mo.size = 0)
    (hn : ∀ lm ∈ ob.asks ++ ob.bids, ∀ o ∈ lm.orders, 0 ≤ o.size)
    (hna : (ob.asks.map Limit.price).Nodup)
    (hnb : (ob.bids.map Limit.price).Nodup) :
    ob.fill_market_order mo = (ob, mo) := by
  have hasks : ∀ lm ∈ ob.asks, ∀ o ∈ lm.orders, 0 ≤ o.size :=
    fun lm h => hn lm (List.mem_append.mpr (Or.inl h))
  have hbids : ∀ lm ∈ ob.bids, ∀ o ∈ lm.orders, 0 ≤ o.size :=
    fun lm h => hn lm (List.mem_append.mpr (Or.inr h))
  cases hside : mo.bid_or_ask with
  | Bid =>
    have hsortmem : ∀ lm ∈ ob.ask_limits, ∀ o ∈ lm.orders, 0 ≤ o.size :=
      fun lm h => hasks lm ((ask_limits_perm ob).mem_iff.mp h)
    have hrun := runFill_limits_zero ob.ask_limits mo h0 hsortmem
    simp only [OrderBook.fill_market_order, hside]
    rw [hrun]
    rw [show applyFills ob.asks ob.ask_limits = ob.asks from
      applyFills_of_self ob.asks ob.ask_limits (ask_limits_perm ob) hna]
  | Ask =>
    have hsortmem : ∀ lm ∈ ob.bid_limits, ∀ o ∈ lm.orders, 0 ≤ o.size :=
      fun lm h => hbids lm ((bid_limits_perm ob).mem_iff.mp h)
    have hrun := runFill_limits_zero ob.bid_limits mo h0 hsortmem
    simp only [OrderBook.fill_market_order, hside]
    rw [hrun]
    rw [show applyFills ob.bids ob.bid_limits = ob.bids from
      applyFills_of_self ob.bids ob.bid_limits (bid_limits_perm ob) hnb]

theorem applyFills_mem (side filled : List Limit) (y : Limit)
    (hy : y ∈ applyFills side filled) : y ∈ filled ∨ y ∈ side := by
  unfold applyFills at hy
  obtain ⟨l, hl, hres⟩ := List.mem_map.mp hy
  cases hfind : filled.find? (fun fl => fl.price == l.price) with
  | none =>
    right
    rw [hfind] at hres
    simp only [Option.getD_none] at hres
    exact hres ▸ hl
  | some f =>
    left
    rw [hfind] at hres
    simp only [Option.getD_some] at hres
    exact hres ▸ List.mem_of_find?_eq_some hfind

/-- C4: starting from non-negative sizes, no fill step ever drives a size
below zero — after `Limit.fill_order` and after `OrderBook.fill_market_order`
every resting order's size and the market order's size are still
non-negative. -/
theorem claim_C4_sizes_stay_nonneg :
    (∀ (lm : Limit) (mo : Order),
      (∀ o ∈ lm.orders, 0 ≤ o.size) → 0 ≤ mo.size →
      (∀ o ∈ ((lm.fill_order mo).1).orders, 0 ≤ o.size) ∧
        0 ≤ ((lm.fill_order mo).2).size) ∧
    (∀ (ob : OrderBook) (mo : Order),
      (∀ lm ∈ ob.asks ++ ob.bids, ∀ o ∈ lm.orders, 0 ≤ o.size) → 0 ≤ mo.size →
      (∀ lm ∈ ((ob.fill_market_order mo).1).asks ++ ((ob.fill_market_order mo).1).bids,
          ∀ o ∈ lm.orders, 0 ≤ o.size) ∧
        0 ≤ ((ob.fill_market_order mo).2).size) := by
  constructor
  · exact fun lm mo h1 h2 => fill_order_nonneg lm mo h1 h2
  · intro ob mo hn hmo
    have hasks : ∀ lm ∈ ob.asks, ∀ o ∈ lm.orders, 0 ≤ o.size :=
      fun lm h => hn lm (List.mem_append.mpr (Or.inl h))
    have hbids : ∀ lm ∈ ob.bids, ∀ o ∈ lm.orders, 0 ≤ o.size :=
      fun lm h => hn lm (List.mem_append.mpr (Or.inr h))
    cases hside : mo.bid_or_ask with
    | Bid =>
      have hsortmem : ∀ lm ∈ ob.ask_limits, ∀ o ∈ lm.orders, 0 ≤ o.size :=
        fun lm h => hasks lm ((ask_limits_perm ob).mem_iff.mp h)
      have hrun := runFill_preserve Limit.fill_order
        (fun lm => ∀ o ∈ lm.orders, 0 ≤ o.size)
        (fun x m hx hm => fill_order_nonneg x m hx hm)
        ob.ask_limits mo hsortmem hmo
      simp only [OrderBook.fill_market_order, hside]
      constructor
      · intro lm hlm
        rcases List.mem_append.mp hlm with hlm | hlm
        · rcases applyFills_mem ob.asks _ lm hlm with hf | hf
          · exact hrun.1 lm hf
          · exact hasks lm hf
        · exact hbids lm hlm
      · exact hrun.2
    | Ask =>
      have hsortmem : ∀ lm ∈ ob.bid_limits, ∀ o ∈ lm.orders, 0 ≤ o.size :=
        fun lm h => hbids lm ((bid_limits_perm ob).mem_iff.mp h)
      have hrun := runFill_preserve Limit.fill_order
        (fun lm => ∀ o ∈ lm.orders, 0 ≤ o.size)
        (fun x m hx hm => fill_order_nonneg x m hx hm)
        ob.bid_limits mo hsortmem hmo
      simp only [OrderBook.fill_market_order, hside]
      constructor
      · intro lm hlm
        rcases List.mem_append.mp hlm with hlm | hlm
        · exact hasks lm hlm
        · rcases applyFills_mem ob.bids _ lm hlm with hf | hf
          · exact hrun.1 lm hf
          · exact hbids lm hf
      · exact hrun.2

/-- C9: fills never remove or reorder anything — `Limit.fill_order` keeps the
level's price and its queue's orders (identity given by side) in the same
first-in-first-out positions, and `OrderBook.fill_market_order` keeps both
sides' lists of level shapes exactly as they were; only size fields change. -/
theorem claim_C9_fill_preserves_structure :
    (∀ (lm : Limit) (mo : Order), ((lm.fill_order mo).1).shape = lm.shape) ∧
    (∀ (ob : OrderBook) (mo : Order),
      (ob.asks.map Limit.price).Nodup → (ob.bids.map Limit.price).Nodup →
      ((ob.fill_market_order mo).1).asks.map Limit.shape = ob.asks.map Limit.shape ∧
      ((ob.fill_market_order mo).1).bids.map Limit.shape = ob.bids.map Limit.shape) := by
  constructor
  · exact fill_order_shape
  · intro ob mo hna hnb
    cases hside : mo.bid_or_ask with
    | Bid =>
      have hshape : ((runFill Limit.fill_order ob.ask_limits mo).1).map Limit.shape =
          ob.ask_limits.map Limit.shape :=
        runFill_map_eq Limit.fill_order Limit.shape fill_order_shape ob.ask_limits mo
      simp only [OrderBook.fill_market_order, hside]
      exact ⟨applyFills_map_shape ob.asks ob.ask_limits _ (ask_limits_perm ob) hna hshape,
        trivial⟩
    | Ask =>
      have hshape : ((runFill Limit.fill_order ob.bid_limits mo).1).map Limit.shape =
          ob.bid_limits.map Limit.shape :=
        runFill_map_eq Limit.fill_order Limit.shape fill_order_shape ob.bid_limits mo
      simp only [OrderBook.fill_market_order, hside]
      exact ⟨trivial,
        applyFills_map_shape ob.bids ob.bid_limits _ (bid_limits_perm ob) hnb hshape⟩

/-- C3 counterexample: one resting bid of size 1 at price 1 filled by a market
ask of size 1.  Before the fill, resting sizes plus market size sum to 2;
afterwards both sizes are 0, so the sum claimed invariant fails. -/
theorem claim_C3_counterexample :
    ¬ (sumSizes ((Limit.fill_order { price := 1, orders := [Order.new BidOrAsk.Bid 1] }
          (Order.new BidOrAsk.Ask 1)).1.orders)
        + ((Limit.fill_order { price := 1, orders := [Order.new BidOrAsk.Bid 1] }
          (Order.new BidOrAsk.Ask 1)).2).size
      = sumSizes [Order.new BidOrAsk.Bid 1] + (Order.new BidOrAsk.Ask 1).size) := by
  norm_num [Limit.fill_order, runFill, fillOne, Order.is_filled, Order.new, sumSizes]

/-- C3 (amended): a fill decreases the resting total and the market order's
size by the same amount, so resting-total-after plus market-size-before equals
resting-total-before plus market-size-after — after every step of the
order-queue loop (`i` loop iterations of `Limit.fill_order`'s body), after a
whole `Limit.fill_order`, and across `OrderBook.fill_market_order`. -/
theorem claim_C3_conservation :
    (∀ (q : List Order) (mo : Order) (i : ℕ),
      sumSizes ((runFill fillOne (q.take i) mo).1 ++ q.drop i) + mo.size
        = sumSizes q + ((runFill fillOne (q.take i) mo).2).size) ∧
    (∀ (lm : Limit) (mo : Order),
      ((lm.fill_order mo).1).volume + mo.size
        = lm.volume + ((lm.fill_order mo).2).size) ∧
    (∀ (ob : OrderBook) (mo : Order),
      (ob.asks.map Limit.price).Nodup → (ob.bids.map Limit.price).Nodup →
      ((ob.fill_market_order mo).1).volume + mo.size
        = ob.volume + ((ob.fill_market_order mo).2).size) := by
  refine ⟨?_, fill_order_conserve, ?_⟩
  · intro q mo i
    have h := runFill_conserve fillOne Order.size fillOne_conserve (q.take i) mo
    have hsplit : (q.map Order.size).sum =
        ((q.take i).map Order.size).sum + ((q.drop i).map Order.size).sum := by
      rw [← List.sum_append, ← List.map_append, List.take_append_drop]
    unfold sumSizes
    rw [List.map_append, List.sum_append, hsplit]
    linarith
  · intro ob mo hna hnb
    cases hside : mo.bid_or_ask with
    | Bid =>
      have hprice : ((runFill Limit.fill_order ob.ask_limits mo).1).map Limit.price =
          ob.ask_limits.map Limit.price :=
        runFill_map_eq Limit.fill_order Limit.price fill_order_price ob.ask_limits mo
      have hperm := applyFills_perm ob.asks ob.ask_limits _ (ask_limits_perm ob) hna hprice
      have hcons := runFill_conserve Limit.fill_order Limit.volume fill_order_conserve
        ob.ask_limits mo
      have hsum1 : ((applyFills ob.asks
          (runFill Limit.fill_order ob.ask_limits mo).1).map Limit.volume).sum =
          (((runFill Limit.fill_order ob.ask_limits mo).1).map Limit.volume).sum :=
        (hperm.map Limit.volume).sum_eq
      have hsum2 : (ob.ask_limits.map Limit.volume).sum = (ob.asks.map Limit.volume).sum :=
        ((ask_limits_perm ob).map Limit.volume).sum_eq
      simp only [OrderBook.fill_market_order, hside, OrderBook.volume]
      rw [List.map_append, List.sum_append, List.map_append, List.sum_append]
      linarith
    | Ask =>
      have hprice : ((runFill Limit.fill_order ob.bid_limits mo).1).map Limit.price =
          ob.bid_limits.map Limit.price :=
        runFill_map_eq Limit.fill_order Limit.price fill_order_price ob.bid_limits mo
      have hperm := applyFills_perm ob.bids ob.bid_limits _ (bid_limits_perm ob) hnb hprice
      have hcons := runFill_conserve Limit.fill_order Limit.volume fill_order_conserve
        ob.bid_limits mo
      have hsum1 : ((applyFills ob.bids
          (runFill Limit.fill_order ob.bid_limits mo).1).map Limit.volume).sum =
          (((runFill Limit.fill_order ob.bid_limits mo).1).map Limit.volume).sum :=
        (hperm.map Limit.volume).sum_eq
      have hsum2 : (ob.bid_limits.map Limit.volume).sum = (ob.bids.map Limit.volume).sum :=
        ((bid_limits_perm ob).map Limit.volume).sum_eq
      simp only [OrderBook.fill_market_order, hside, OrderBook.volume]
      rw [List.map_append, List.sum_append, List.map_append, List.sum_append]
      linarith

/-- C1: a market order consumes liquidity from the opposing side only — the
other side is untouched, the opposing levels are visited in priority order
(ascending ask prices for an incoming bid, descending bid prices for an
incoming ask), each visited level is filled via `Limit.fill_order`, and the
loop stops at the first level after which the market order's size is zero, or
after the last level. -/
theorem claim_C1_fill_market_order (ob : OrderBook) (mo : Order) :
    (mo.bid_or_ask = BidOrAsk.Bid →
      ((ob.fill_market_order mo).1).bids = ob.bids ∧
      ((ob.fill_market_order mo).1).asks =
        applyFills ob.asks (runFill Limit.fill_order ob.ask_limits mo).1 ∧
      (ob.fill_market_order mo).2 = (runFill Limit.fill_order ob.ask_limits mo).2 ∧
      ob.ask_limits.Pairwise (fun a b => a.price ≤ b.price) ∧
      FillTrace Limit.fill_order ob.ask_limits mo) ∧
    (mo.bid_or_ask = BidOrAsk.Ask →
      ((ob.fill_market_order mo).1).asks = ob.asks ∧
      ((ob.fill_market_order mo).1).bids =
        applyFills ob.bids (runFill Limit.fill_order ob.bid_limits mo).1 ∧
      (ob.fill_market_order mo).2 = (runFill Limit.fill_order ob.bid_limits mo).2 ∧
      ob.bid_limits.Pairwise (fun a b => b.price ≤ a.price) ∧
      FillTrace Limit.fill_order ob.bid_limits mo) := by
  constructor
  · intro hside
    simp only [OrderBook.fill_market_order, hside]
    exact ⟨trivial, trivial, trivial, ask_limits_sorted ob, runFill_trace Limit.fill_order _ mo⟩
  · intro hside
    simp only [OrderBook.fill_market_order, hside]
    exact ⟨trivial, trivial, trivial, bid_limits_sorted ob, runFill_trace Limit.fill_order _ mo⟩

theorem fillOne_eq_ite (lo m : Order) :
    fillOne lo m =
      ({ lo with size := if m.size ≥ lo.size then 0 else lo.size - m.size },
       { m with size := if m.size ≥ lo.size then m.size - lo.size else 0 }) := by
  by_cases h : m.size ≥ lo.size
  · simp [fillOne, h]
  · simp [fillOne, h]

/-- C2: `Limit.fill_order` processes the queue front to back: some prefix of
length `k` is processed, the rest of the queue is untouched, the loop stops
exactly when the market order's size first reaches zero after an iteration
(or when the queue is exhausted); and each processed step `i` turns the
resting order's size into `0` when the market remainder is at least as large,
subtracting that resting size from the market order, and otherwise subtracts
the whole market remainder from the resting order, zeroing the market order. -/
theorem claim_C2_fill_order_steps (lm : Limit) (mo : Order) :
    (∃ k, k ≤ lm.orders.length ∧
      lm.fill_order mo =
        ({ lm with orders := (runAll fillOne (lm.orders.take k) mo).1 ++ lm.orders.drop k },
         (runAll fillOne (lm.orders.take k) mo).2) ∧
      (k = lm.orders.length ∨ ((runAll fillOne (lm.orders.take k) mo).2).size = 0) ∧
      (∀ j, 0 < j → j < k →
        ((runAll fillOne (lm.orders.take j) mo).2).size ≠ 0)) ∧
    (∀ (i : ℕ) (hi : i < lm.orders.length),
      runAll fillOne (lm.orders.take (i + 1)) mo =
        ((runAll fillOne (lm.orders.take i) mo).1 ++
          [{ lm.orders.get ⟨i, hi⟩ with size :=
              if ((runAll fillOne (lm.orders.take i) mo).2).size ≥
                  (lm.orders.get ⟨i, hi⟩).size
              then 0
              else (lm.orders.get ⟨i, hi⟩).size -
                ((runAll fillOne (lm.orders.take i) mo).2).size }],
         { (runAll fillOne (lm.orders.take i) mo).2 with size :=
             if ((runAll fillOne (lm.orders.take i) mo).2).size ≥
                 (lm.orders.get ⟨i, hi⟩).size
             then ((runAll fillOne (lm.orders.take i) mo).2).size -
               (lm.orders.get ⟨i, hi⟩).size
             else 0 })) := by
  constructor
  · obtain ⟨k, hk, heq, hstop, hmin⟩ := runFill_trace fillOne lm.orders mo
    refine ⟨k, hk, ?_, hstop, hmin⟩
    rw [fill_order_def, heq]
  · intro i hi
    rw [runAll_take_succ fillOne lm.orders mo i hi, fillOne_eq_ite]

theorem place_asks :
    ∀ (ps : List (ℚ × Order)) (ob : OrderBook),
      (∀ pr ∈ ps, (pr.2).bid_or_ask = BidOrAsk.Ask) →
      ((ob.asks.map Limit.price ++ ps.map Prod.fst).Nodup) →
      (ps.foldl (fun b pr => b.add_limit_order pr.1 pr.2) ob).asks.map Limit.price
          = ob.asks.map Limit.price ++ ps.map Prod.fst ∧
        (ps.foldl (fun b pr => b.add_limit_order pr.1 pr.2) ob).bids = ob.bids := by
  intro ps
  induction ps with
  | nil => intro ob _ _; simp
  | cons pr rest ih =>
    intro ob hall hnd
    have hside := hall pr (by simp)
    have hadd : ob.add_limit_order pr.1 pr.2 =
        { ob with asks := addToSide ob.asks pr.1 pr.2 } := by
      unfold OrderBook.add_limit_order
      rw [hside]
    have hnotmem : pr.1 ∉ ob.asks.map Limit.price := by
      intro hc
      rw [List.nodup_append] at hnd
      exact hnd.2.2 hc (by simp)
    have hany : ob.asks.any (fun l => l.price == pr.1) = false := by
      rw [List.any_eq_false]
      intro l hl hc
      exact hnotmem (List.mem_map.mpr ⟨l, hl, beq_iff_eq.mp hc⟩)
    have haddside : addToSide ob.asks pr.1 pr.2 =
        ob.asks ++ [(Limit.new pr.1).add_order pr.2] := by
      unfold addToSide
      rw [if_neg (by simp [hany])]
    have hprices : (addToSide ob.asks pr.1 pr.2).map Limit.price =
        ob.asks.map Limit.price ++ [pr.1] := by
      rw [haddside]
      simp [Limit.new, Limit.add_order]
    have hnd2 : (((ob.add_limit_order pr.1 pr.2).asks.map Limit.price)
        ++ rest.map Prod.fst).Nodup := by
      rw [hadd]
      simp only
      rw [hprices, List.append_assoc, List.singleton_append]
      simpa using hnd
    have hih := ih (ob.add_limit_order pr.1 pr.2) (fun q hq => hall q (by simp [hq])) hnd2
    rw [List.foldl_cons]
    refine ⟨?_, ?_⟩
    · rw [hih.1, hadd]
      simp only
      rw [hprices, List.append_assoc, List.singleton_append]
      rfl
    · rw [hih.2, hadd]

theorem place_bids :
    ∀ (ps : List (ℚ × Order)) (ob : OrderBook),
      (∀ pr ∈ ps, (pr.2).bid_or_ask = BidOrAsk.Bid) →
      ((ob.bids.map Limit.price ++ ps.map Prod.fst).Nodup) →
      (ps.foldl (fun b pr => b.add_limit_order pr.1 pr.2) ob).bids.map Limit.price
          = ob.bids.map Limit.price ++ ps.map Prod.fst ∧
        (ps.foldl (fun b pr => b.add_limit_order pr.1 pr.2) ob).asks = ob.asks := by
  intro ps
  induction ps with
  | nil => intro ob _ _; simp
  | cons pr rest ih =>
    intro ob hall hnd
    have hside := hall pr (by simp)
    have hadd : ob.add_limit_order pr.1 pr.2 =
        { ob with bids := addToSide ob.bids pr.1 pr.2 } := by
      unfold OrderBook.add_limit_order
      rw [hside]
    have hnotmem : pr.1 ∉ ob.bids.map Limit.price := by
      intro hc
      rw [List.nodup_append] at hnd
      exact hnd.2.2 hc (by simp)
    have hany : ob.bids.any (fun l => l.price == pr.1) = false := by
      rw [List.any_eq_false]
      intro l hl hc
      exact hnotmem (List.mem_map.mpr ⟨l, hl, beq_iff_eq.mp hc⟩)
    have haddside : addToSide ob.bids pr.1 pr.2 =
        ob.bids ++ [(Limit.new pr.1).add_order pr.2] := by
      unfold addToSide
      rw [if_neg (by simp [hany])]
    have hprices : (addToSide ob.bids pr.1 pr.2).map Limit.price =
        ob.bids.map Limit.price ++ [pr.1] := by
      rw [haddside]
      simp [Limit.new, Limit.add_order]
    have hnd2 : (((ob.add_limit_order pr.1 pr.2).bids.map Limit.price)
        ++ rest.map Prod.fst).Nodup := by
      rw [hadd]
      simp only
      rw [hprices, List.append_assoc, List.singleton_append]
      simpa using hnd
    have hih := ih (ob.add_limit_order pr.1 pr.2) (fun q hq => hall q (by simp [hq])) hnd2
    rw [List.foldl_cons]
    refine ⟨?_, ?_⟩
    · rw [hih.1, hadd]
      simp only
      rw [hprices, List.append_assoc, List.singleton_append]
      rfl
    · rw [hih.2, hadd]

/-- C6: placing ask orders at pairwise distinct prices yields `ask_limits()`
sorted strictly ascending by price; placing bid orders at pairwise distinct
prices yields `bid_limits()` sorted strictly descending by price. -/
theorem claim_C6_sorted_views :
    (∀ ps : List (ℚ × Order),
      (∀ pr ∈ ps, (pr.2).bid_or_ask = BidOrAsk.Ask) → (ps.map Prod.fst).Nodup →
      ((placeAll ps).ask_limits).Pairwise (fun a b => a.price < b.price)) ∧
    (∀ ps : List (ℚ × Order),
      (∀ pr ∈ ps, (pr.2).bid_or_ask = BidOrAsk.Bid) → (ps.map Prod.fst).Nodup →
      ((placeAll ps).bid_limits).Pairwise (fun a b => b.price < a.price)) := by
  constructor
  · intro ps hall hnd
    have hp := place_asks ps OrderBook.new hall (by simpa [OrderBook.new] using hnd)
    have hnodup : ((placeAll ps).asks.map Limit.price).Nodup := by
      unfold placeAll
      rw [hp.1]
      simpa [OrderBook.new] using hnd
    have hnds : (((placeAll ps).ask_limits).map Limit.price).Nodup :=
      (((ask_limits_perm (placeAll ps)).map Limit.price).nodup_iff).mpr hnodup
    have hle := ask_limits_sorted (placeAll ps)
    have hne : ((placeAll ps).ask_limits).Pairwise
        (fun a b => a.price ≠ b.price) := List.pairwise_map.mp hnds
    exact (hle.and hne).imp (fun hab => lt_of_le_of_ne hab.1 hab.2)
  · intro ps hall hnd
    have hp := place_bids ps OrderBook.new hall (by simpa [OrderBook.new] using hnd)
    have hnodup : ((placeAll ps).bids.map Limit.price).Nodup := by
      unfold placeAll
      rw [hp.1]
      simpa [OrderBook.new] using hnd
    have hnds : (((placeAll ps).bid_limits).map Limit.price).Nodup :=
      (((bid_limits_perm (placeAll ps)).map Limit.price).nodup_iff).mpr hnodup
    have hle := bid_limits_sorted (placeAll ps)
    have hne : ((placeAll ps).bid_limits).Pairwise
        (fun a b => a.price ≠ b.price) := List.pairwise_map.mp hnds
    exact (hle.and hne).imp (fun hab => lt_of_le_of_ne hab.1 (Ne.symm hab.2))


/-! ## Witnesses -/

/-- Witness for C1 at a two-level ask book and an incoming bid. -/
theorem claim_C1_witness :
    ((exBook.fill_market_order exBid10).1).bids = exBook.bids ∧
    ((exBook.fill_market_order exBid10).1).asks =
      applyFills exBook.asks (runFill Limit.fill_order exBook.ask_limits exBid10).1 ∧
    (exBook.fill_market_order exBid10).2 =
      (runFill Limit.fill_order exBook.ask_limits exBid10).2 ∧
    exBook.ask_limits.Pairwise (fun a b => a.price ≤ b.price) ∧
    FillTrace Limit.fill_order exBook.ask_limits exBid10 :=
  (claim_C1_fill_market_order exBook exBid10).1 rfl

/-- Witness for C2 at a one-order queue, discharging the index bound. -/
theorem claim_C2_witness :
    (∃ k, k ≤ exLimit100.orders.length ∧
      exLimit100.fill_order exBid10 =
        ({ exLimit100 with orders :=
            (runAll fillOne (exLimit100.orders.take k) exBid10).1 ++
              exLimit100.orders.drop k },
         (runAll fillOne (exLimit100.orders.take k) exBid10).2) ∧
      (k = exLimit100.orders.length ∨
        ((runAll fillOne (exLimit100.orders.take k) exBid10).2).size = 0) ∧
      (∀ j, 0 < j → j < k →
        ((runAll fillOne (exLimit100.orders.take j) exBid10).2).size ≠ 0)) ∧
    runAll fillOne (exLimit100.orders.take (0 + 1)) exBid10 =
      ((runAll fillOne (exLimit100.orders.take 0) exBid10).1 ++
        [{ exLimit100.orders.get ⟨0, by decide⟩ with size :=
            if ((runAll fillOne (exLimit100.orders.take 0) exBid10).2).size ≥
                (exLimit100.orders.get ⟨0, by decide⟩).size
            then 0
            else (exLimit100.orders.get ⟨0, by decide⟩).size -
              ((runAll fillOne (exLimit100.orders.take 0) exBid10).2).size }],
       { (runAll fillOne (exLimit100.orders.take 0) exBid10).2 with size :=
           if ((runAll fillOne (exLimit100.orders.take 0) exBid10).2).size ≥
               (exLimit100.orders.get ⟨0, by decide⟩).size
           then ((runAll fillOne (exLimit100.orders.take 0) exBid10).2).size -
             (exLimit100.orders.get ⟨0, by decide⟩).size
           else 0 }) :=
  ⟨(claim_C2_fill_order_steps exLimit100 exBid10).1,
   (claim_C2_fill_order_steps exLimit100 exBid10).2 0 (by decide)⟩

/-- Witness for C3's amended conservation law at a concrete book. -/
theorem claim_C3_witness :
    ((exBook.fill_market_order exBid10).1).volume + exBid10.size
      = exBook.volume + ((exBook.fill_market_order exBid10).2).size :=
  (claim_C3_conservation).2.2 exBook exBid10 (by decide) (by decide)

/-- Witness for C4 at a concrete book with non-negative sizes. -/
theorem claim_C4_witness :
    (∀ lm ∈ ((exBook.fill_market_order exBid10).1).asks ++
        ((exBook.fill_market_order exBid10).1).bids,
      ∀ o ∈ lm.orders, 0 ≤ o.size) ∧
    0 ≤ ((exBook.fill_market_order exBid10).2).size :=
  (claim_C4_sizes_stay_nonneg).2 exBook exBid10 (by decide) (by decide)

/-- Witness for C5: missing market is an error without mutation, registered
market reports success. -/
theorem claim_C5_witness :
    exEngine.place_limit_order exPair2 10 exBid10 =
      (exEngine, Except.error ("the orderbook for the given trading pair ("
        ++ exPair2.to_string ++ ") does not exist")) ∧
    (exEngine.place_limit_order exPair 10 exBid10).2 = Except.ok () :=
  ⟨(claim_C5_place_limit_order exEngine exPair2 10 exBid10).1 (by decide),
   ((claim_C5_place_limit_order exEngine exPair 10 exBid10).2 OrderBook.new (by decide)).1⟩

/-- Witness for C6 at the four ask placements of the repository's test. -/
theorem claim_C6_witness :
    ((placeAll exPlacements).ask_limits).Pairwise (fun a b => a.price < b.price) :=
  (claim_C6_sorted_views).1 exPlacements (by decide) (by decide)

/-- Witness for C7 at a non-empty and an empty price level. -/
theorem claim_C7_witness :
    exLimit100.total_volume = some (sumSizes exLimit100.orders) ∧
    (Limit.new 1).total_volume = none :=
  ⟨(claim_C7_total_volume exLimit100).1 (by decide),
   (claim_C7_total_volume (Limit.new 1)).2 rfl⟩

/-- Witness for C8 at a registry holding one market. -/
theorem claim_C8_witness :
    lookupBook (exEngine.add_new_market exPair) exPair = some OrderBook.new ∧
    lookupBook (exEngine.add_new_market exPair) exPair2 = lookupBook exEngine exPair2 :=
  ⟨(claim_C8_add_new_market exEngine exPair).1,
   (claim_C8_add_new_market exEngine exPair).2 exPair2 (by decide)⟩

/-- Witness for C9 at a concrete book. -/
theorem claim_C9_witness :
    ((exBook.fill_market_order exBid10).1).asks.map Limit.shape =
      exBook.asks.map Limit.shape ∧
    ((exBook.fill_market_order exBid10).1).bids.map Limit.shape =
      exBook.bids.map Limit.shape :=
  (claim_C9_fill_preserves_structure).2 exBook exBid10 (by decide) (by decide)

/-- Witness for C10 at a concrete book and a size-zero market bid. -/
theorem claim_C10_witness :
    exBook.fill_market_order (Order.new BidOrAsk.Bid 0) =
      (exBook, Order.new BidOrAsk.Bid 0) :=
  claim_C10_zero_market_order exBook (Order.new BidOrAsk.Bid 0)
    (by decide) (by decide) (by decide) (by decide)
